import Mathlib

/-!
# Verification of the decimal64/decimal128 arithmetic engine specification

This development formalises the data model and operations of the
`go-decimal-proposal` repository.  The repository itself contains the proposal
document (`README.md`), the post-acceptance roadmap (`ROADMAP.md`), an
end-to-end test program embedded in the Docker build, and the playground web
server (`playground.go`).  The arithmetic core (BID encoding, rounding,
arithmetic, parsing/formatting, hashing) lives in the companion Go-compiler
fork and is not part of this repository's sources; those operations are
therefore modelled from the specification, as marked on each definition.
The playground server's request handling is embedded directly from
`playground.go`.
-/

namespace DecSpec

/-- Modelled from the spec: a decimal value (§3) is either a finite number
`sign × coefficient × 10^exponent` or a special value (signed infinity,
quiet or signaling NaN).  The decoded triple, not the raw bit pattern, is
what the arithmetic engine operates on (§4.4, §9). -/
inductive Decimal where
  | finite (sign : Bool) (coeff : Nat) (exp : Int)
  | inf (sign : Bool)
  | nan (signaling : Bool)
deriving DecidableEq, Repr

/-- Modelled from the spec: the per-size parameters (§3 invariants):
the coefficient digit budget and the representable exponent range. -/
structure DecCtx where
  maxDigits : Nat
  expMin : Int
  expMax : Int
deriving DecidableEq, Repr

/-- Sanity conditions every real context satisfies. -/
def DecCtx.ok (ctx : DecCtx) : Prop :=
  1 ≤ ctx.maxDigits ∧ ctx.expMin ≤ 0 ∧ 0 ≤ ctx.expMax

instance (ctx : DecCtx) : Decidable ctx.ok := by
  unfold DecCtx.ok; infer_instance

/-- Modelled from the spec: decimal64 parameters — 16 coefficient digits,
exponent range −398…+369 (§3). -/
def dec64 : DecCtx := ⟨16, -398, 369⟩

/-- Modelled from the spec: decimal128 parameters — 34 coefficient digits,
exponent range −6176…+6111 (§3). -/
def dec128 : DecCtx := ⟨34, -6176, 6111⟩

/-- Decimal digits of `n`, least significant first; `fuel`-bounded structural
recursion so that the kernel can evaluate it (`fuel ≥ n` suffices). -/
def natDigitsRev : Nat → Nat → List Nat
  | 0, _ => []
  | fuel + 1, n => if n = 0 then [] else n % 10 :: natDigitsRev fuel (n / 10)

/-- Decimal digits of `c`, most significant first; `[0]` for zero. -/
def msdigits (c : Nat) : List Nat :=
  if c = 0 then [0] else (natDigitsRev c c).reverse

/-- Number of decimal digits of a coefficient (`numDigits 0 = 1`). -/
def numDigits (c : Nat) : Nat := (msdigits c).length

/-- Value of a most-significant-first digit list. -/
def ofDigitsMS (l : List Nat) : Nat := l.foldl (fun acc d => acc * 10 + d) 0

/-- Divide `c` by `10^k`, rounding half to even (§4.3: ties resolved toward
the even low-order digit of the retained coefficient). -/
def rhe (c k : Nat) : Nat :=
  let p := 10 ^ k
  let q := c / p
  let r := c % p
  if p < 2 * r ∨ (2 * r = p ∧ q % 2 = 1) then q + 1 else q

/-- Modelled from the spec: `roundToDigits` (§4.3) — if the coefficient has
more than `m` decimal digits, divide by the appropriate power of ten using
round-half-to-even and increase the exponent to compensate.  A carry out of
the top digit (all nines rounding up) yields exactly `10^m`, which is reduced
by one more (exact) digit shift. -/
def roundToDigits (m : Nat) (c : Nat) (e : Int) : Nat × Int :=
  if c < 10 ^ m then (c, e)
  else
    let k := numDigits c - m
    let q := rhe c k
    if q < 10 ^ m then (q, e + k) else (q / 10, e + (k + 1))

/-- Modelled from the spec: rounding and exponent clamping (§4.3).  The
coefficient is reduced to the digit budget; an exponent above the maximum is
absorbed by padding the coefficient with zeros when the budget allows,
otherwise the result overflows to signed infinity; an exponent below the
minimum forces the coefficient toward zero, losing trailing digits (decimal
underflow).  A zero coefficient only has its exponent clamped into range. -/
def normalize (ctx : DecCtx) (s : Bool) (c : Nat) (e : Int) : Decimal :=
  let p := roundToDigits ctx.maxDigits c e
  let c1 := p.1
  let e1 := p.2
  if c1 = 0 then .finite s 0 (max ctx.expMin (min ctx.expMax e1))
  else if ctx.expMax < e1 then
    let d := (e1 - ctx.expMax).toNat
    if c1 * 10 ^ d < 10 ^ ctx.maxDigits then .finite s (c1 * 10 ^ d) ctx.expMax
    else .inf s
  else if e1 < ctx.expMin then
    let d := (ctx.expMin - e1).toNat
    let c2 := rhe c1 d
    if c2 < 10 ^ ctx.maxDigits then .finite s c2 ctx.expMin else .inf s
  else .finite s c1 e1

/-- A well-formed value of a given size: a finite value respects the digit
budget and exponent range; the special values are always representable. -/
def wf (ctx : DecCtx) : Decimal → Prop
  | .finite _ c e => c < 10 ^ ctx.maxDigits ∧ ctx.expMin ≤ e ∧ e ≤ ctx.expMax
  | .inf _ => True
  | .nan _ => True

instance (ctx : DecCtx) (d : Decimal) : Decidable (wf ctx d) :=
  match d with
  | .finite _ _ _ => inferInstanceAs (Decidable (_ ∧ _ ∧ _))
  | .inf _ => inferInstanceAs (Decidable True)
  | .nan _ => inferInstanceAs (Decidable True)

/-- Exponent accessor for finite values. -/
def exponentOf : Decimal → Option Int
  | .finite _ _ e => some e
  | _ => none

/-- Signed magnitude addition of two aligned coefficients: equal signs add
the magnitudes; opposite signs subtract, the result taking the sign of the
larger magnitude (an exact cancellation gives `+0`, per round-to-nearest). -/
def addSigned (sa : Bool) (A : Nat) (sb : Bool) (B : Nat) : Bool × Nat :=
  if sa = sb then (sa, A + B)
  else if A = B then (false, 0)
  else if B < A then (sa, A - B) else (sb, B - A)

/-- Modelled from the spec: the aligned core of add/subtract (§4.4) for
`eb ≤ ea`.  The coarser operand `a` is scaled up to the finer exponent; if
that scale-up would overflow the double-width coefficient capacity
(`2 × maxDigits` digits), the finer operand is instead rounded down by just
enough digits to fit, losing trailing digits. -/
def addAligned (ctx : DecCtx) (sa : Bool) (ca : Nat) (ea : Int)
    (sb : Bool) (cb : Nat) (eb : Int) : Bool × Nat × Int :=
  let k := (ea - eb).toNat
  let j := min ((numDigits ca + k) - 2 * ctx.maxDigits) k
  let A := ca * 10 ^ (k - j)
  let B := rhe cb j
  let sm := addSigned sa A sb B
  (sm.1, sm.2, eb + (j : Int))

/-- Modelled from the spec: finite addition core — orient the operands so the
coarser (larger-exponent) one is scaled (§4.4 Add/Subtract). -/
def addCore (ctx : DecCtx) (sa : Bool) (ca : Nat) (ea : Int)
    (sb : Bool) (cb : Nat) (eb : Int) : Bool × Nat × Int :=
  if eb ≤ ea then addAligned ctx sa ca ea sb cb eb
  else addAligned ctx sb cb eb sa ca ea

/-- Modelled from the spec: addition (§4.4).  Both operands are classified
first; any signaling NaN operand converts to quiet and the operation returns
quiet NaN; any quiet NaN operand returns quiet NaN; `Inf + finite = Inf`
(sign preserved) and `Inf − Inf` (opposite-signed infinities) yields NaN.
The finite case aligns to the smaller exponent and rounds via §4.3. -/
def addDec (ctx : DecCtx) : Decimal → Decimal → Decimal
  | .nan _, _ => .nan false
  | _, .nan _ => .nan false
  | .inf sa, .inf sb => if sa = sb then .inf sa else .nan false
  | .inf sa, .finite _ _ _ => .inf sa
  | .finite _ _ _, .inf sb => .inf sb
  | .finite sa ca ea, .finite sb cb eb =>
    let r := addCore ctx sa ca ea sb cb eb
    normalize ctx r.1 r.2.1 r.2.2

/-- Negation: flips the sign of finite values and infinities; NaN unchanged. -/
def negDec : Decimal → Decimal
  | .finite s c e => .finite (!s) c e
  | .inf s => .inf (!s)
  | .nan q => .nan q

/-- Modelled from the spec: subtraction is addition of the negation (§4.4). -/
def subDec (ctx : DecCtx) (a b : Decimal) : Decimal := addDec ctx a (negDec b)

/-- Modelled from the spec: multiplication (§4.4 Multiply) — coefficient is
the widening product of the coefficients, exponent the sum of the exponents
(quanta add), sign the XOR of the signs; result rounded via §4.3.
`Inf × 0` yields NaN; infinity times anything else nonzero is infinity. -/
def mulDec (ctx : DecCtx) : Decimal → Decimal → Decimal
  | .nan _, _ => .nan false
  | _, .nan _ => .nan false
  | .inf sa, .inf sb => .inf (Bool.xor sa sb)
  | .inf sa, .finite sb cb _ => if cb = 0 then .nan false else .inf (Bool.xor sa sb)
  | .finite sa ca _, .inf sb => if ca = 0 then .nan false else .inf (Bool.xor sa sb)
  | .finite sa ca ea, .finite sb cb eb =>
    normalize ctx (Bool.xor sa sb) (ca * cb) (ea + eb)

/-- Smallest scale-up (in powers of ten) of the dividend needed for the
integer quotient to reach `target`; fuel-bounded search. -/
def divScaleAux (cb target : Nat) : Nat → Nat → Nat
  | 0, _ => 0
  | fuel + 1, N => if target ≤ N / cb then 0 else 1 + divScaleAux cb target fuel (N * 10)

/-- Modelled from the spec: division (§4.4 Divide) — scale the dividend
coefficient up by enough powers of ten (tracked against the exponent) to
produce `maxDigits + 1` significant quotient digits via integer division,
round half to even on the extra digit, with
`exponent = ea − eb − scaleApplied (+1 for the dropped digit)`.
Division by zero of a nonzero finite value gives signed infinity; `0/0`,
`Inf/Inf` and NaN operands give quiet NaN; `finite/Inf` gives signed zero. -/
def divDec (ctx : DecCtx) : Decimal → Decimal → Decimal
  | .nan _, _ => .nan false
  | _, .nan _ => .nan false
  | .inf _, .inf _ => .nan false
  | .inf sa, .finite sb _ _ => .inf (Bool.xor sa sb)
  | .finite sa _ _, .inf sb => .finite (Bool.xor sa sb) 0 0
  | .finite sa ca ea, .finite sb cb eb =>
    if cb = 0 then (if ca = 0 then .nan false else .inf (Bool.xor sa sb))
    else if ca = 0 then normalize ctx (Bool.xor sa sb) 0 (ea - eb)
    else
      let s := divScaleAux cb (10 ^ ctx.maxDigits) (ctx.maxDigits + numDigits cb + 1) ca
      let N := ca * 10 ^ s
      let q := N / cb
      let r := N % cb
      let d := q % 10
      let q' := q / 10
      let q2 := if 5 < d ∨ (d = 5 ∧ (r ≠ 0 ∨ q' % 2 = 1)) then q' + 1 else q'
      normalize ctx (Bool.xor sa sb) q2 (ea - eb - s + 1)

/-- Modelled from the spec: fused multiply-add (§4.4) — the full-width
product of `a` and `b` is added to `c` without intermediate rounding, and
the result is rounded once at the end. -/
def fmaDec (ctx : DecCtx) : Decimal → Decimal → Decimal → Decimal
  | .nan _, _, _ => .nan false
  | _, .nan _, _ => .nan false
  | _, _, .nan _ => .nan false
  | .inf sa, .inf sb, c =>
    match c with
    | .inf sc => if sc = Bool.xor sa sb then .inf sc else .nan false
    | _ => .inf (Bool.xor sa sb)
  | .inf sa, .finite sb cb _, c =>
    if cb = 0 then .nan false
    else match c with
    | .inf sc => if sc = Bool.xor sa sb then .inf sc else .nan false
    | _ => .inf (Bool.xor sa sb)
  | .finite sa ca _, .inf sb, c =>
    if ca = 0 then .nan false
    else match c with
    | .inf sc => if sc = Bool.xor sa sb then .inf sc else .nan false
    | _ => .inf (Bool.xor sa sb)
  | .finite _ _ _, .finite _ _ _, .inf sc => .inf sc
  | .finite sa ca ea, .finite sb cb eb, .finite sc cc ec =>
    let sp := Bool.xor sa sb
    let cp := ca * cb
    let ep := ea + eb
    let m := min ep ec
    let A := cp * 10 ^ (ep - m).toNat
    let C := cc * 10 ^ (ec - m).toNat
    let sm := addSigned sp A sc C
    normalize ctx sm.1 sm.2 m

/-- Three-way comparison of naturals. -/
def cmp3 (a b : Nat) : Ordering :=
  if a < b then .lt else if b < a then .gt else .eq

/-- Modelled from the spec: comparison (§4.4 Compare) — special values
first (NaN is unordered with everything, including itself; signed zero
compares equal regardless of sign); otherwise the coefficients are
cross-scaled to a common exponent and compared with the signs. -/
def cmpDec : Decimal → Decimal → Option Ordering
  | .nan _, _ => none
  | _, .nan _ => none
  | .inf sa, .inf sb =>
    some (if sa = sb then .eq else if sa then .lt else .gt)
  | .inf sa, .finite _ _ _ => some (if sa then .lt else .gt)
  | .finite _ _ _, .inf sb => some (if sb then .gt else .lt)
  | .finite sa ca ea, .finite sb cb eb =>
    let m := min ea eb
    let A := ca * 10 ^ (ea - m).toNat
    let B := cb * 10 ^ (eb - m).toNat
    some (if A = 0 ∧ B = 0 then .eq
      else if A = 0 then (if sb then .gt else .lt)
      else if B = 0 then (if sa then .lt else .gt)
      else if sa ≠ sb then (if sa then .lt else .gt)
      else if sa then cmp3 B A else cmp3 A B)

/-- Equality as exposed by the `==` operator: numeric comparison, with NaN
unequal to everything including itself. -/
def beqDec (a b : Decimal) : Bool :=
  match cmpDec a b with
  | some .eq => true
  | _ => false

/-- Strip trailing zero digits from a coefficient, returning the reduced
core and the number of zeros removed; `fuel`-bounded structural recursion
(`fuel ≥ c` suffices). -/
def stripZerosF : Nat → Nat → Nat × Nat
  | 0, c => (c, 0)
  | fuel + 1, c =>
    if c ≠ 0 ∧ c % 10 = 0 then
      let p := stripZerosF fuel (c / 10)
      (p.1, p.2 + 1)
    else (c, 0)

/-- Trailing-zero decomposition: `c = (stripZeros c).1 * 10 ^ (stripZeros c).2`
with the core not divisible by ten. -/
def stripZeros (c : Nat) : Nat × Nat := stripZerosF c c

/-- Modelled from the spec: the canonical form used by hashing and map-key
equality (§2 Hash & equality normalization; README `Hashing`): trailing
zeros are stripped from the coefficient (raising the exponent to match) and
every zero is reduced to `+0` with exponent 0, so numerically equal values
with different quanta share one canonical form. -/
def canonical : Decimal → Decimal
  | .finite s c e =>
    if c = 0 then .finite false 0 0
    else
      let p := stripZeros c
      .finite s p.1 (e + (p.2 : Int))
  | .inf s => .inf s
  | .nan _ => .nan false

/-- Modelled from the spec: the map-key hash is a function of the canonical
form only (README: "hashing normalizes trailing zeros so that `1.0` and
`1.00` hash identically"); we model the hash as the canonical form itself —
any concrete mixing function factors through it. -/
def hashDec : Decimal → Decimal := canonical

/-- Modelled from the spec: widening conversion between the sizes (§6):
the decoded triple is re-normalized into the destination parameters (for
decimal64 → decimal128 this is always exact and quantum-preserving). -/
def widen (ctx : DecCtx) : Decimal → Decimal
  | .finite s c e => normalize ctx s c e
  | .inf s => .inf s
  | .nan q => .nan q

/-- The character for a single decimal digit (code point 48 + digit). -/
def digitChar (d : Nat) : Char := Char.ofNat (48 + d)

/-- Inverse of `digitChar` on the ten digit characters. -/
def charToDigit (c : Char) : Option Nat :=
  if '0' ≤ c ∧ c ≤ '9' then some (c.toNat - 48) else none

/-- Most-significant-first digit characters of a coefficient. -/
def msdigitChars (c : Nat) : List Char := (msdigits c).map digitChar

/-- Modelled from the spec: render a finite coefficient/exponent pair using
the stored digit count and exponent (§6 Text format).  A nonpositive
exponent places a decimal point (padding with leading zeros as needed); a
positive exponent is written with the exponent marker so the quantum
survives a round trip. -/
def mantChars (c : Nat) (e : Int) : List Char :=
  let ds := msdigitChars c
  if 0 < e then ds ++ 'e' :: msdigitChars e.toNat
  else if e = 0 then ds
  else
    let k := (-e).toNat
    if k < ds.length then ds.take (ds.length - k) ++ '.' :: ds.drop (ds.length - k)
    else '0' :: '.' :: (List.replicate (k - ds.length) '0' ++ ds)

/-- Conventional display drops the fractional trailing zeros (§6: "strips
trailing zero digits before rendering"): remove as many stripped zeros as
the fractional part has, raising the exponent to match. -/
def convParts (c : Nat) (e : Int) : Nat × Int :=
  let t := min (stripZeros c).2 (if e < 0 then (-e).toNat else 0)
  (c / 10 ^ t, e + (t : Int))

/-- Modelled from the spec: the format entry point (§6).  The flag selects
quantum-preserving output (render the stored coefficient digits and
exponent exactly) versus conventional trailing-zero-stripped output.
NaN renders as `NaN` and infinities as `+Inf`/`-Inf`, matching the
end-to-end tests in the Docker build. -/
def formatDec (quantumPreserving : Bool) : Decimal → String
  | .nan _ => "NaN"
  | .inf s => if s then "-Inf" else "+Inf"
  | .finite s c e =>
    let p := if quantumPreserving then (c, e) else convParts c e
    String.mk ((if s then ['-'] else []) ++ mantChars p.1 p.2)

/-- Leading sign of a literal: `-`, `+`, or none. -/
def takeSign (l : List Char) : Bool × List Char :=
  match l with
  | [] => (false, [])
  | c :: t =>
    if c = '-' then (true, t)
    else if c = '+' then (false, c :: t)
    else (false, c :: t)

/-- Convert a character list of digits, failing on any non-digit. -/
def digitsOfChars : List Char → Option (List Nat)
  | [] => some []
  | c :: t =>
    match charToDigit c, digitsOfChars t with
    | some d, some ds => some (d :: ds)
    | _, _ => none

/-- Split at the first character satisfying `p`, if any. -/
def splitOn (p : Char → Bool) : List Char → List Char × Option (List Char)
  | [] => ([], none)
  | c :: t =>
    if p c then ([], some t)
    else
      let r := splitOn p t
      (c :: r.1, r.2)

/-- A nonempty all-digit character list as a natural number. -/
def natOfChars (l : List Char) : Option Nat :=
  match digitsOfChars l with
  | some ds => if ds.isEmpty then none else some (ofDigitsMS ds)
  | none => none

/-- The exponent-marker suffix: optional sign, then digits. -/
def parseExpPart (l : List Char) : Option Int :=
  match l with
  | [] => none
  | c :: t =>
    if c = '-' then (natOfChars t).map (fun n => -(n : Int))
    else if c = '+' then (natOfChars t).map (fun n => (n : Int))
    else (natOfChars (c :: t)).map (fun n => (n : Int))

/-- Exponent-marker character. -/
def isE (c : Char) : Bool := c = 'e' || c = 'E'

/-- Decimal-point character. -/
def isDot (c : Char) : Bool := c = '.'

/-- Modelled from the spec: parse the numeric body of a literal (§6 Text
format): digits, optional decimal point, optional exponent marker.  The
number of digits after the point becomes (the negative part of) the quantum;
when the digit count fits the budget and the exponent is in range the parsed
triple is kept exactly, otherwise it is rounded/clamped via §4.3 (§7:
excess significant digits are not an error). -/
def parseFinite (ctx : DecCtx) (sg : Bool) (l : List Char) : Option Decimal :=
  let me := splitOn isE l
  let mi := splitOn isDot me.1
  let fp := mi.2.getD []
  match digitsOfChars mi.1, digitsOfChars fp with
  | some ipd, some fpd =>
    if ipd.isEmpty && fpd.isEmpty then none
    else
      let c := ofDigitsMS (ipd ++ fpd)
      let exVal : Option Int :=
        match me.2 with
        | none => some 0
        | some ep => parseExpPart ep
      match exVal with
      | none => none
      | some ex =>
        let e : Int := ex - (fpd.length : Int)
        if c < 10 ^ ctx.maxDigits ∧ ctx.expMin ≤ e ∧ e ≤ ctx.expMax then
          some (.finite sg c e)
        else some (normalize ctx sg c e)
  | _, _ => none

/-- Modelled from the spec: the parse entry point (§6): an optional sign,
then either a case-insensitive special token (`inf`/`infinity`, `nan`,
`snan`) or a numeric body; malformed input is an error (§7). -/
def parseDec (ctx : DecCtx) (s : String) : Option Decimal :=
  let sr := takeSign s.data
  let low := sr.2.map Char.toLower
  if low = "inf".data ∨ low = "infinity".data then some (.inf sr.1)
  else if low = "nan".data then some (.nan false)
  else if low = "snan".data then some (.nan true)
  else parseFinite ctx sr.1 sr.2

/-- The four fields of a BID interchange layout, in bit widths. -/
structure BidLayout where
  signBits : Nat
  combBits : Nat
  expContBits : Nat
  coeffContBits : Nat
deriving DecidableEq, Repr

/-- Total width of a layout. -/
def BidLayout.total (l : BidLayout) : Nat :=
  l.signBits + l.combBits + l.expContBits + l.coeffContBits

/-- The decimal64 layout as the end-to-end test decodes it
(`Dockerfile` test 6: sign bit 63, a 10-bit biased exponent at bits 53–62 —
2 bits from the combination field plus an 8-bit continuation — and a 53-bit
coefficient — 3 bits from the combination field plus a 50-bit trailing
significand). -/
def bid64Layout : BidLayout := ⟨1, 5, 8, 50⟩

/-- The decimal128 layout (§6): 12-bit exponent continuation and 110-bit
trailing significand. -/
def bid128Layout : BidLayout := ⟨1, 5, 12, 110⟩

/-- The layout exactly as the specification's table states it, for
comparison with `bid64Layout`: the table claims a 6-bit exponent
continuation for decimal64. -/
def bid64LayoutSpecTable : BidLayout := ⟨1, 5, 6, 50⟩

/-- Coefficient field extraction of the small BID64 form, embedded from the
Docker-built test program: `coeff := bits & ((1 << 53) - 1)`. -/
def bid64DecodeCoeff (bits : Nat) : Nat := bits % 2 ^ 53

/-- Biased-exponent field extraction, embedded from the Docker-built test
program: `exp := int((bits >> 53) & 0x3FF) - 398`. -/
def bid64DecodeExp (bits : Nat) : Int := ((bits / 2 ^ 53) % 2 ^ 10 : Nat) - 398

/-- One nanosecond-denominated second, as in Go's `time.Second`. -/
def goSecond : Nat := 1000000000

/-- Embedded from `playground.go`: `const runTimeout = 10 * time.Second`. -/
def runTimeout : Nat := 10 * goSecond

/-- Embedded from `playground.go`: the `runResponse` JSON payload
(`Output string`, `Error string` with `omitempty` — modelled as an option). -/
structure RunResponse where
  output : String
  error : Option String
deriving DecidableEq, Repr

/-- Embedded from `playground.go` (`handleRun`, after `cmd.CombinedOutput()`
returns): the response carries the combined output; when the command failed
and the context deadline was exceeded the error is the fixed timeout
message, otherwise the command's own error text. -/
def handleRunResult (out : String) (cmdErr : Option String)
    (deadlineExceeded : Bool) : RunResponse :=
  match cmdErr with
  | none => ⟨out, none⟩
  | some msg =>
    if deadlineExceeded then ⟨out, some "program timed out (10s limit)"⟩
    else ⟨out, some msg⟩

/-- A digit list bounds its value: `n < 10 ^ length` (fuel-general form). -/
theorem natDigitsRev_lt : ∀ fuel n : Nat, n ≤ fuel → n < 10 ^ (natDigitsRev fuel n).length := by
  intro fuel
  induction fuel with
  | zero =>
    intro n h
    have h0 : n = 0 := Nat.le_zero.mp h
    subst h0
    simp [natDigitsRev]
  | succ f ih =>
    intro n h
    by_cases hn : n = 0
    · subst hn; simp [natDigitsRev]
    · have hd : n / 10 < n := Nat.div_lt_self (Nat.pos_of_ne_zero hn) (by norm_num)
      have ihd := ih (n / 10) (by omega)
      have hm := Nat.div_add_mod n 10
      have hr : n % 10 < 10 := Nat.mod_lt _ (by norm_num)
      simp only [natDigitsRev, if_neg hn, List.length_cons]
      rw [pow_succ]
      nlinarith [ihd]

/-- Every coefficient is below ten to its digit count. -/
theorem lt_pow_numDigits (c : Nat) : c < 10 ^ numDigits c := by
  unfold numDigits msdigits
  by_cases h : c = 0
  · subst h; simp
  · simp only [if_neg h, List.length_reverse]
    exact natDigitsRev_lt c c le_rfl

/-- A digit-count bound gives a size bound. -/
theorem lt_pow_of_numDigits_le {c m : Nat} (h : numDigits c ≤ m) : c < 10 ^ m :=
  lt_of_lt_of_le (lt_pow_numDigits c) (Nat.pow_le_pow_right (by norm_num) h)

/-- A size lower bound gives a digit-count lower bound. -/
theorem lt_numDigits_of_pow_le {c m : Nat} (h : 10 ^ m ≤ c) : m < numDigits c := by
  by_contra hc
  push_neg at hc
  exact absurd (lt_pow_of_numDigits_le hc) (not_lt.mpr h)

/-- Shifting by zero digits with round-half-to-even is the identity. -/
theorem rhe_zero (c : Nat) : rhe c 0 = c := by
  simp [rhe]
  omega

/-- Round-half-to-even exceeds the truncated quotient by at most one. -/
theorem rhe_le (c k : Nat) : rhe c k ≤ c / 10 ^ k + 1 := by
  unfold rhe
  dsimp only
  split
  · exact le_rfl
  · exact Nat.le_succ _

/-- A coefficient already within the budget is not rounded. -/
theorem roundToDigits_eq_self {m c : Nat} (e : Int) (h : c < 10 ^ m) :
    roundToDigits m c e = (c, e) := by
  unfold roundToDigits
  rw [if_pos h]

/-- The rounded coefficient always fits the digit budget. -/
theorem roundToDigits_lt {m : Nat} (c : Nat) (e : Int) (hm : 1 ≤ m) :
    (roundToDigits m c e).1 < 10 ^ m := by
  unfold roundToDigits
  by_cases h : c < 10 ^ m
  · rw [if_pos h]; exact h
  · rw [if_neg h]
    dsimp only
    have hnd : m < numDigits c := lt_numDigits_of_pow_le (not_lt.mp h)
    have hk : m + (numDigits c - m) = numDigits c := by omega
    have hdiv : c / 10 ^ (numDigits c - m) < 10 ^ m := by
      rw [Nat.div_lt_iff_lt_mul (Nat.pos_pow_of_pos _ (by norm_num))]
      calc c < 10 ^ numDigits c := lt_pow_numDigits c
        _ = 10 ^ m * 10 ^ (numDigits c - m) := by rw [← pow_add, hk]
    have hq := rhe_le c (numDigits c - m)
    by_cases h2 : rhe c (numDigits c - m) < 10 ^ m
    · rw [if_pos h2]; exact h2
    · rw [if_neg h2]
      have heq : rhe c (numDigits c - m) = 10 ^ m := by omega
      rw [heq]
      obtain ⟨m', rfl⟩ : ∃ m', m = m' + 1 := ⟨m - 1, by omega⟩
      rw [pow_succ, Nat.mul_div_cancel _ (by norm_num)]
      exact Nat.pow_lt_pow_succ (by norm_num)

/-- A triple already reduced to the budget and exponent range is left
untouched by normalization. -/
theorem normalize_eq_self {ctx : DecCtx} (s : Bool) {c : Nat} {e : Int}
    (hc : c < 10 ^ ctx.maxDigits) (h1 : ctx.expMin ≤ e) (h2 : e ≤ ctx.expMax) :
    normalize ctx s c e = .finite s c e := by
  unfold normalize
  rw [roundToDigits_eq_self e hc]
  dsimp only
  by_cases h0 : c = 0
  · rw [if_pos h0]
    have : max ctx.expMin (min ctx.expMax e) = e := by omega
    rw [this, h0]
  · rw [if_neg h0, if_neg (not_lt.mpr h2), if_neg (not_lt.mpr h1)]

/-- Normalization always produces a well-formed value. -/
theorem wf_normalize (ctx : DecCtx) (hok : ctx.ok) (s : Bool) (c : Nat) (e : Int) :
    wf ctx (normalize ctx s c e) := by
  obtain ⟨hm, he1, he2⟩ := hok
  have he : ctx.expMin ≤ ctx.expMax := le_trans he1 he2
  have hrd := roundToDigits_lt c e hm
  unfold normalize
  dsimp only
  split_ifs with h0 h1 h2 h3 h4
  · exact ⟨Nat.pos_pow_of_pos _ (by norm_num), by omega, by omega⟩
  · exact ⟨h2, he, le_rfl⟩
  · trivial
  · exact ⟨h4, le_rfl, he⟩
  · trivial
  · exact ⟨hrd, by omega, by omega⟩

/-- Signed magnitude addition does not depend on operand order. -/
theorem addSigned_comm (sa sb : Bool) (A B : Nat) :
    addSigned sa A sb B = addSigned sb B sa A := by
  unfold addSigned
  by_cases h : sa = sb
  · have h' : sb = sa := h.symm
    rw [if_pos h, if_pos h', h, Nat.add_comm]
  · have h' : ¬sb = sa := fun e => h e.symm
    rw [if_neg h, if_neg h']
    by_cases hAB : A = B
    · have hBA : B = A := hAB.symm
      rw [if_pos hAB, if_pos hBA]
    · have hBA : ¬B = A := fun e => hAB e.symm
      rw [if_neg hAB, if_neg hBA]
      by_cases hlt : B < A
      · rw [if_pos hlt, if_neg (by omega : ¬A < B)]
      · rw [if_neg hlt, if_pos (by omega : A < B)]

/-- C5: whenever multiplication triggers no overflow-rounding — the product
of the coefficients fits the digit budget and the exponent sum is in range —
the result exponent is exactly the sum of the operand exponents (quanta
add). -/
theorem claim_C5_mul_exponent_adds (ctx : DecCtx) (sa : Bool) (ca : Nat) (ea : Int)
    (sb : Bool) (cb : Nat) (eb : Int)
    (hd : numDigits (ca * cb) ≤ ctx.maxDigits)
    (h1 : ctx.expMin ≤ ea + eb) (h2 : ea + eb ≤ ctx.expMax) :
    exponentOf (mulDec ctx (.finite sa ca ea) (.finite sb cb eb)) = some (ea + eb) := by
  have hc : ca * cb < 10 ^ ctx.maxDigits := lt_pow_of_numDigits_le hd
  show exponentOf (normalize ctx (Bool.xor sa sb) (ca * cb) (ea + eb)) = some (ea + eb)
  rw [normalize_eq_self _ hc h1 h2]
  rfl

/-- C5 witness: `1.50 × 1.20` in decimal64 — coefficients 150 and 120 with
exponents −2 each; the product exponent is −4. -/
theorem claim_C5_mul_exponent_adds_witness :
    numDigits (150 * 120) ≤ dec64.maxDigits ∧
    dec64.expMin ≤ (-2 : Int) + -2 ∧ ((-2 : Int) + -2) ≤ dec64.expMax ∧
    exponentOf (mulDec dec64 (.finite false 150 (-2)) (.finite false 120 (-2))) =
      some ((-2 : Int) + -2) :=
  ⟨by decide, by decide, by decide,
    claim_C5_mul_exponent_adds dec64 false 150 (-2) false 120 (-2)
      (by decide) (by decide) (by decide)⟩

/-- C6: whenever addition triggers no overflow-rounding — both operands can
be aligned to the smaller exponent within the double-width capacity, the
aligned sum fits the digit budget, and the smaller exponent is in range —
the result exponent is the minimum of the operand exponents (the sum carries
the finer quantum). -/
theorem claim_C6_add_exponent_min (ctx : DecCtx) (sa : Bool) (ca : Nat) (ea : Int)
    (sb : Bool) (cb : Nat) (eb : Int)
    (hfa : numDigits ca + (ea - min ea eb).toNat ≤ 2 * ctx.maxDigits)
    (hfb : numDigits cb + (eb - min ea eb).toNat ≤ 2 * ctx.maxDigits)
    (hsum : (addSigned sa (ca * 10 ^ (ea - min ea eb).toNat)
        sb (cb * 10 ^ (eb - min ea eb).toNat)).2 < 10 ^ ctx.maxDigits)
    (h1 : ctx.expMin ≤ min ea eb) (h2 : min ea eb ≤ ctx.expMax) :
    exponentOf (addDec ctx (.finite sa ca ea) (.finite sb cb eb)) = some (min ea eb) := by
  show exponentOf
      (normalize ctx (addCore ctx sa ca ea sb cb eb).1
        (addCore ctx sa ca ea sb cb eb).2.1 (addCore ctx sa ca ea sb cb eb).2.2) = _
  by_cases hba : eb ≤ ea
  · have hmin : min ea eb = eb := min_eq_right hba
    rw [hmin] at hfa hsum h1 h2
    have hb0 : (eb - eb).toNat = 0 := by omega
    rw [hb0, pow_zero, Nat.mul_one] at hsum
    have hcore : addCore ctx sa ca ea sb cb eb =
        ((addSigned sa (ca * 10 ^ (ea - eb).toNat) sb cb).1,
          (addSigned sa (ca * 10 ^ (ea - eb).toNat) sb cb).2, eb) := by
      unfold addCore addAligned
      rw [if_pos hba]
      have hj : min ((numDigits ca + (ea - eb).toNat) - 2 * ctx.maxDigits)
          ((ea - eb).toNat) = 0 := by omega
      dsimp only
      rw [hj, Nat.sub_zero, rhe_zero]
      simp
    rw [hcore]
    dsimp only
    rw [normalize_eq_self _ hsum h1 h2]
    rw [hmin]
    rfl
  · have hab : ea ≤ eb := by omega
    have hmin : min ea eb = ea := min_eq_left hab
    rw [hmin] at hfb hsum h1 h2
    have ha0 : (ea - ea).toNat = 0 := by omega
    rw [ha0, pow_zero, Nat.mul_one] at hsum
    rw [addSigned_comm] at hsum
    have hcore : addCore ctx sa ca ea sb cb eb =
        ((addSigned sb (cb * 10 ^ (eb - ea).toNat) sa ca).1,
          (addSigned sb (cb * 10 ^ (eb - ea).toNat) sa ca).2, ea) := by
      unfold addCore addAligned
      rw [if_neg hba]
      have hj : min ((numDigits cb + (eb - ea).toNat) - 2 * ctx.maxDigits)
          ((eb - ea).toNat) = 0 := by omega
      dsimp only
      rw [hj, Nat.sub_zero, rhe_zero]
      simp
    rw [hcore]
    dsimp only
    rw [normalize_eq_self _ hsum h1 h2]
    rw [hmin]
    rfl

/-- C6 witness: `1.5 + 0.20` in decimal64 — exponents −1 and −2; the sum has
exponent −2 (the finer quantum), coefficient 170. -/
theorem claim_C6_add_exponent_min_witness :
    exponentOf (addDec dec64 (.finite false 15 (-1)) (.finite false 20 (-2))) =
      some (min (-1 : Int) (-2)) :=
  claim_C6_add_exponent_min dec64 false 15 (-1) false 20 (-2)
    (by decide) (by decide) (by decide) (by decide) (by decide)

/-- Specification of the trailing-zero stripper (fuel-general form): the
coefficient factors as the stripped core times the matching power of ten,
and the core is nonzero and not divisible by ten. -/
theorem stripZerosF_spec : ∀ fuel c : Nat, c ≤ fuel → c ≠ 0 →
    c = (stripZerosF fuel c).1 * 10 ^ (stripZerosF fuel c).2 ∧
    (stripZerosF fuel c).1 % 10 ≠ 0 ∧ (stripZerosF fuel c).1 ≠ 0 := by
  intro fuel
  induction fuel with
  | zero => intro c h h0; exact absurd (Nat.le_zero.mp h) h0
  | succ f ih =>
    intro c h h0
    by_cases hdiv : c % 10 = 0
    · have hcond : c ≠ 0 ∧ c % 10 = 0 := ⟨h0, hdiv⟩
      have hge : 10 ≤ c := by omega
      have hne : c / 10 ≠ 0 := by omega
      have ihp := ih (c / 10) (by omega) hne
      simp only [stripZerosF, if_pos hcond]
      obtain ⟨h1, h2, h3⟩ := ihp
      refine ⟨?_, h2, h3⟩
      calc c = c / 10 * 10 := (Nat.div_mul_cancel (Nat.dvd_of_mod_eq_zero hdiv)).symm
        _ = (stripZerosF f (c / 10)).1 * 10 ^ (stripZerosF f (c / 10)).2 * 10 := by
            rw [← h1]
        _ = (stripZerosF f (c / 10)).1 * 10 ^ ((stripZerosF f (c / 10)).2 + 1) := by
            rw [pow_succ, mul_assoc]
    · have hcond : ¬(c ≠ 0 ∧ c % 10 = 0) := fun hc => hdiv hc.2
      simp only [stripZerosF, if_neg hcond]
      exact ⟨by simp, hdiv, h0⟩

/-- Trailing-zero decomposition for nonzero coefficients. -/
theorem stripZeros_spec {c : Nat} (h0 : c ≠ 0) :
    c = (stripZeros c).1 * 10 ^ (stripZeros c).2 ∧
    (stripZeros c).1 % 10 ≠ 0 ∧ (stripZeros c).1 ≠ 0 :=
  stripZerosF_spec c c le_rfl h0

/-- Half of the uniqueness of the trailing-zero decomposition. -/
theorem pow10_factor_unique_le {a b i j : Nat} (hij : i ≤ j)
    (h : a * 10 ^ i = b * 10 ^ j) (ha : a % 10 ≠ 0) : a = b ∧ i = j := by
  have hsplit : b * 10 ^ j = b * 10 ^ (j - i) * 10 ^ i := by
    rw [mul_assoc, ← pow_add]
    congr 2
    omega
  have hcan : a = b * 10 ^ (j - i) :=
    Nat.eq_of_mul_eq_mul_right (Nat.pos_pow_of_pos _ (by norm_num)) (h.trans hsplit)
  by_cases hji : j - i = 0
  · constructor
    · rw [hcan, hji, pow_zero, Nat.mul_one]
    · omega
  · exfalso
    apply ha
    obtain ⟨d, hd⟩ : ∃ d, j - i = d + 1 := ⟨j - i - 1, by omega⟩
    rw [hcan, hd, pow_succ, ← mul_assoc]
    exact Nat.mul_mod_left _ 10

/-- Uniqueness of the trailing-zero decomposition: a product of a
ten-indivisible core and a power of ten determines both factors. -/
theorem pow10_factor_unique {a b i j : Nat} (h : a * 10 ^ i = b * 10 ^ j)
    (ha : a % 10 ≠ 0) (hb : b % 10 ≠ 0) : a = b ∧ i = j := by
  rcases le_total i j with hij | hij
  · exact pow10_factor_unique_le hij h ha
  · obtain ⟨h1, h2⟩ := pow10_factor_unique_le hij h.symm hb
    exact ⟨h1.symm, h2.symm⟩

/-- Numerically equal finite values have the same canonical form. -/
theorem canonical_eq_of_numEq (sa : Bool) (ca : Nat) (ea : Int)
    (sb : Bool) (cb : Nat) (eb : Int)
    (hval : ca * 10 ^ (ea - min ea eb).toNat = cb * 10 ^ (eb - min ea eb).toNat)
    (hsign : sa = sb ∨ ca = 0) :
    canonical (.finite sa ca ea) = canonical (.finite sb cb eb) := by
  by_cases hca : ca = 0
  · have hB : cb * 10 ^ (eb - min ea eb).toNat = 0 := by
      rw [← hval, hca, Nat.zero_mul]
    have hcb : cb = 0 := by
      rcases Nat.mul_eq_zero.mp hB with h | h
      · exact h
      · exact absurd h (pow_ne_zero _ (by norm_num))
    simp only [canonical]
    rw [if_pos hca, if_pos hcb]
  · have hA : ca * 10 ^ (ea - min ea eb).toNat ≠ 0 :=
      Nat.mul_ne_zero hca (pow_ne_zero _ (by norm_num))
    have hcb : cb ≠ 0 := by
      intro h
      exact hA (by rw [hval, h, Nat.zero_mul])
    have hs : sa = sb := hsign.resolve_right hca
    obtain ⟨ea1, em1, ez1⟩ := stripZeros_spec hca
    obtain ⟨ea2, em2, ez2⟩ := stripZeros_spec hcb
    have key : (stripZeros ca).1 * 10 ^ ((stripZeros ca).2 + (ea - min ea eb).toNat) =
        (stripZeros cb).1 * 10 ^ ((stripZeros cb).2 + (eb - min ea eb).toNat) := by
      rw [pow_add, pow_add, ← mul_assoc, ← mul_assoc, ← ea1, ← ea2]
      exact hval
    obtain ⟨hr, hk⟩ := pow10_factor_unique key em1 em2
    have hpa : (((ea - min ea eb).toNat : Nat) : Int) = ea - min ea eb :=
      Int.toNat_of_nonneg (by omega)
    have hpb : (((eb - min ea eb).toNat : Nat) : Int) = eb - min ea eb :=
      Int.toNat_of_nonneg (by omega)
    have hk' : ((stripZeros ca).2 : Int) + ((ea - min ea eb).toNat : Nat) =
        ((stripZeros cb).2 : Int) + ((eb - min ea eb).toNat : Nat) := by
      exact_mod_cast hk
    have hexp : ea + ((stripZeros ca).2 : Int) = eb + ((stripZeros cb).2 : Int) := by
      omega
    simp only [canonical]
    rw [if_neg hca, if_neg hcb]
    rw [hs, hr, hexp]

/-- `cmp3` is reflexive-equal. -/
theorem cmp3_self (a : Nat) : cmp3 a a = .eq := by
  unfold cmp3
  rw [if_neg (lt_irrefl a), if_neg (lt_irrefl a)]

/-- Numerically equal finite values compare equal. -/
theorem cmpDec_eq_of_numEq (sa : Bool) (ca : Nat) (ea : Int)
    (sb : Bool) (cb : Nat) (eb : Int)
    (hval : ca * 10 ^ (ea - min ea eb).toNat = cb * 10 ^ (eb - min ea eb).toNat)
    (hsign : sa = sb ∨ ca = 0) :
    cmpDec (.finite sa ca ea) (.finite sb cb eb) = some .eq := by
  simp only [cmpDec]
  congr 1
  by_cases hA : ca * 10 ^ (ea - min ea eb).toNat = 0
  · have hB : cb * 10 ^ (eb - min ea eb).toNat = 0 := by rw [← hval, hA]
    rw [if_pos ⟨hA, hB⟩]
  · have hB : ¬cb * 10 ^ (eb - min ea eb).toNat = 0 := by rw [← hval]; exact hA
    have hca : ca ≠ 0 := fun h => hA (by rw [h, Nat.zero_mul])
    have hs : sa = sb := hsign.resolve_right hca
    rw [if_neg (fun hc : _ ∧ _ => hA hc.1), if_neg hA, if_neg hB,
      if_neg (fun hne : sa ≠ sb => hne hs), hval, cmp3_self, ite_self]

/-- C7: two finite decimal values with the same numeric value (possibly
different quanta) hash equal — the hash being a function of the canonical,
trailing-zero-stripped form — and compare equal under `==`, so they are
interchangeable as map keys.  Numeric equality is expressed by equality of
the cross-scaled coefficients together with equal signs (or a zero value). -/
theorem claim_C7_hash_eq_normalization (sa : Bool) (ca : Nat) (ea : Int)
    (sb : Bool) (cb : Nat) (eb : Int)
    (hval : ca * 10 ^ (ea - min ea eb).toNat = cb * 10 ^ (eb - min ea eb).toNat)
    (hsign : sa = sb ∨ ca = 0) :
    hashDec (.finite sa ca ea) = hashDec (.finite sb cb eb) ∧
    beqDec (.finite sa ca ea) (.finite sb cb eb) = true := by
  constructor
  · exact canonical_eq_of_numEq sa ca ea sb cb eb hval hsign
  · unfold beqDec
    rw [cmpDec_eq_of_numEq sa ca ea sb cb eb hval hsign]

/-- C7 witness: `1.0` (coefficient 10, exponent −1) and `1.00` (coefficient
100, exponent −2) hash and compare equal. -/
theorem claim_C7_hash_eq_normalization_witness :
    (10 : Nat) * 10 ^ ((-1 : Int) - min (-1 : Int) (-2)).toNat =
      100 * 10 ^ ((-2 : Int) - min (-1 : Int) (-2)).toNat ∧
    hashDec (.finite false 10 (-1)) = hashDec (.finite false 100 (-2)) ∧
    beqDec (.finite false 10 (-1)) (.finite false 100 (-2)) = true :=
  ⟨by decide,
    claim_C7_hash_eq_normalization false 10 (-1) false 100 (-2) (by decide) (Or.inl rfl)⟩

/-- Addition is total and always yields a representable value. -/
theorem wf_addDec (ctx : DecCtx) (hok : ctx.ok) (a b : Decimal) :
    wf ctx (addDec ctx a b) := by
  cases a <;> cases b <;> simp only [addDec] <;> try trivial
  · exact wf_normalize ctx hok _ _ _
  · split <;> trivial

/-- Subtraction is total and always yields a representable value. -/
theorem wf_subDec (ctx : DecCtx) (hok : ctx.ok) (a b : Decimal) :
    wf ctx (subDec ctx a b) :=
  wf_addDec ctx hok a (negDec b)

/-- Multiplication is total and always yields a representable value. -/
theorem wf_mulDec (ctx : DecCtx) (hok : ctx.ok) (a b : Decimal) :
    wf ctx (mulDec ctx a b) := by
  cases a <;> cases b <;> simp only [mulDec] <;> try trivial
  · exact wf_normalize ctx hok _ _ _
  · split <;> trivial
  · split <;> trivial

/-- Division is total and always yields a representable value. -/
theorem wf_divDec (ctx : DecCtx) (hok : ctx.ok) (a b : Decimal) :
    wf ctx (divDec ctx a b) := by
  obtain ⟨hm, he1, he2⟩ := hok
  cases a <;> cases b <;> simp only [divDec] <;> try trivial
  · split_ifs <;>
      first
        | trivial
        | exact wf_normalize ctx ⟨hm, he1, he2⟩ _ _ _
  · exact ⟨Nat.pos_pow_of_pos _ (by norm_num), he1, he2⟩

/-- Fused multiply-add is total and always yields a representable value. -/
theorem wf_fmaDec (ctx : DecCtx) (hok : ctx.ok) (a b c : Decimal) :
    wf ctx (fmaDec ctx a b c) := by
  cases a <;> cases b <;> cases c <;> simp only [fmaDec] <;> try trivial
  all_goals try exact wf_normalize ctx hok _ _ _
  all_goals split_ifs <;> trivial

/-- C9: the arithmetic surface is total — every operation returns a
well-formed result value for every operand combination (no exception path
exists) — and the special outcomes are as IEEE 754 dictates: division of a
nonzero finite value by zero gives signed infinity, the invalid operations
`0/0`, `Inf − Inf`, `Inf × 0` and `Inf/Inf` give quiet NaN, and a
magnitude too large to represent (here the extreme decimal64 product)
overflows to signed infinity. -/
theorem claim_C9_total_and_specials (ctx : DecCtx) (hok : ctx.ok) :
    (∀ a b : Decimal,
      wf ctx (addDec ctx a b) ∧ wf ctx (subDec ctx a b) ∧
      wf ctx (mulDec ctx a b) ∧ wf ctx (divDec ctx a b)) ∧
    (∀ a b c : Decimal, wf ctx (fmaDec ctx a b c)) ∧
    (∀ (sa : Bool) (ca : Nat) (ea : Int) (sb : Bool) (eb : Int), ca ≠ 0 →
      divDec ctx (.finite sa ca ea) (.finite sb 0 eb) = .inf (Bool.xor sa sb)) ∧
    (∀ (sa : Bool) (ea : Int) (sb : Bool) (eb : Int),
      divDec ctx (.finite sa 0 ea) (.finite sb 0 eb) = .nan false) ∧
    (∀ sa sb : Bool, sa ≠ sb → addDec ctx (.inf sa) (.inf sb) = .nan false) ∧
    (∀ (sa sb : Bool) (e : Int), mulDec ctx (.inf sa) (.finite sb 0 e) = .nan false) ∧
    (∀ sa sb : Bool, divDec ctx (.inf sa) (.inf sb) = .nan false) ∧
    mulDec dec64 (.finite false (10 ^ 16 - 1) 369) (.finite false (10 ^ 16 - 1) 369) =
      .inf false := by
  refine ⟨fun a b => ⟨wf_addDec ctx hok a b, wf_subDec ctx hok a b,
      wf_mulDec ctx hok a b, wf_divDec ctx hok a b⟩,
    fun a b c => wf_fmaDec ctx hok a b c, ?_, ?_, ?_, ?_, ?_, ?_⟩
  · intro sa ca ea sb eb h
    simp [divDec, h]
  · intro sa ea sb eb
    simp [divDec]
  · intro sa sb h
    simp [addDec, h]
  · intro sa sb e
    simp [mulDec]
  · intro sa sb
    rfl
  · decide

/-- C9 witness: the decimal64 context is sane, and a sample quotient is
well-formed. -/
theorem claim_C9_total_and_specials_witness :
    dec64.ok ∧ wf dec64 (divDec dec64 (.finite false 1 0) (.finite false 3 0)) :=
  ⟨by decide,
    (((claim_C9_total_and_specials dec64 (by decide)).1
      (.finite false 1 0) (.finite false 3 0)).2.2.2)⟩

/-- C1: intended signaling-NaN behavior per the specification (§4.4): in the
spec-modelled engine every binary operation — add, subtract, multiply,
divide, fused-multiply-add — maps a signaling-NaN operand (either side) to a
quiet-NaN result, and comparison treats it as unordered.  The repository's
own roadmap states the shipped implementation does not yet do this, so this
theorem documents the specified behavior at the failing input rather than
confirming the claim against the code. -/
theorem claim_C1_snan_quieting_model :
    addDec dec64 (.nan true) (.finite false 1 0) = .nan false ∧
    addDec dec64 (.finite false 1 0) (.nan true) = .nan false ∧
    subDec dec64 (.nan true) (.finite false 1 0) = .nan false ∧
    subDec dec64 (.finite false 1 0) (.nan true) = .nan false ∧
    mulDec dec64 (.nan true) (.finite false 1 0) = .nan false ∧
    mulDec dec64 (.finite false 1 0) (.nan true) = .nan false ∧
    divDec dec64 (.nan true) (.finite false 1 0) = .nan false ∧
    divDec dec64 (.finite false 1 0) (.nan true) = .nan false ∧
    fmaDec dec64 (.nan true) (.finite false 1 0) (.finite false 1 0) = .nan false ∧
    fmaDec dec64 (.finite false 1 0) (.finite false 1 0) (.nan true) = .nan false ∧
    cmpDec (.nan true) (.finite false 1 0) = none :=
  ⟨rfl, rfl, rfl, rfl, rfl, rfl, rfl, rfl, rfl, rfl, rfl⟩

/-- C2: `multiply(decimal64(1.50), decimal64(1.20))` — the literal `1.50`
decodes to coefficient 150 with exponent −2, likewise `1.20` to 120/−2; the
product has coefficient 18000 and exponent −4, quantum-preserving format
`"1.8000"`, conventional format `"1.8"`, and widening to decimal128 leaves
the quantum-preserving format `"1.8000"` unchanged. -/
theorem claim_C2_multiply_literal_scenario :
    mulDec dec64 (.finite false 150 (-2)) (.finite false 120 (-2)) =
      .finite false 18000 (-4) ∧
    formatDec true (mulDec dec64 (.finite false 150 (-2)) (.finite false 120 (-2))) =
      "1.8000" ∧
    formatDec false (mulDec dec64 (.finite false 150 (-2)) (.finite false 120 (-2))) =
      "1.8" ∧
    formatDec true (widen dec128
      (mulDec dec64 (.finite false 150 (-2)) (.finite false 120 (-2)))) = "1.8000" :=
  ⟨rfl, rfl, rfl, rfl⟩

/-- C3 counterexample: the specification's layout table gives decimal64 a
6-bit exponent continuation, but then the four fields total 62 bits, not the
64 bits the same table (and the claim) assert. -/
theorem claim_C3_counterexample :
    bid64LayoutSpecTable.total = 62 ∧ bid64LayoutSpecTable.total ≠ 64 :=
  ⟨rfl, by decide⟩

/-- C3 (amended): the decimal64 layout is 1 sign bit, a 5-bit combination
field, an 8-bit (not 6-bit) exponent continuation and a 50-bit coefficient
continuation, totalling 64 bits; with the combination field contributing 2
exponent and 3 coefficient bits this matches the 10-bit biased-exponent and
53-bit coefficient fields the end-to-end test decodes.  The decimal128
layout is 1 + 5 + 12 + 110 = 128 bits as claimed. -/
theorem claim_C3_layout_amended :
    bid64Layout = ⟨1, 5, 8, 50⟩ ∧
    bid64Layout.total = 64 ∧
    bid128Layout = ⟨1, 5, 12, 110⟩ ∧
    bid128Layout.total = 128 ∧
    2 + bid64Layout.expContBits = 10 ∧
    3 + bid64Layout.coeffContBits = 53 ∧
    (∀ bits : Nat, bid64DecodeCoeff bits = bits % 2 ^ (3 + bid64Layout.coeffContBits)) ∧
    (∀ bits : Nat,
      bid64DecodeExp bits =
        ((bits / 2 ^ (3 + bid64Layout.coeffContBits)) % 2 ^ (2 + bid64Layout.expContBits) : Nat)
          - 398) :=
  ⟨rfl, rfl, rfl, rfl, rfl, rfl, fun _ => rfl, fun _ => rfl⟩

/-- C4: `decimal64(0.1) + decimal64(0.2) == decimal64(0.3)` is true (the
literals decode to 1/−1, 2/−1 and 3/−1; the sum is exactly 3/−1), and the
conventional formatting of the sum is `"0.3"`. -/
theorem claim_C4_zero_point_three :
    beqDec (addDec dec64 (.finite false 1 (-1)) (.finite false 2 (-1)))
      (.finite false 3 (-1)) = true ∧
    formatDec false (addDec dec64 (.finite false 1 (-1)) (.finite false 2 (-1))) = "0.3" :=
  ⟨rfl, rfl⟩

/-- C10: the playground's run timeout is `10 * time.Second`, and whenever
the subprocess ends in error with the context deadline exceeded, `handleRun`
still answers with a JSON `runResponse` whose error field is exactly
`"program timed out (10s limit)"` and whose output field carries the
combined output captured so far. -/
theorem claim_C10_run_timeout :
    runTimeout = 10 * goSecond ∧
    (∀ (out msg : String),
      handleRunResult out (some msg) true =
        ⟨out, some "program timed out (10s limit)"⟩) ∧
    (∀ (out msg : String),
      handleRunResult out (some msg) false = ⟨out, some msg⟩) ∧
    (∀ out : String, handleRunResult out none false = ⟨out, none⟩) :=
  ⟨rfl, fun _ _ => rfl, fun _ _ => rfl, fun _ => rfl⟩


/-- Every digit produced by `natDigitsRev` is below ten. -/
theorem natDigitsRev_mem_lt : ∀ fuel n d : Nat, d ∈ natDigitsRev fuel n → d < 10 := by
  intro fuel
  induction fuel with
  | zero => intro n d h; simp [natDigitsRev] at h
  | succ f ih =>
    intro n d h
    by_cases hn : n = 0
    · subst hn; simp [natDigitsRev] at h
    · simp only [natDigitsRev, if_neg hn, List.mem_cons] at h
      rcases h with h | h
      · subst h; exact Nat.mod_lt _ (by norm_num)
      · exact ih _ _ h

/-- Every digit of a coefficient is below ten. -/
theorem msdigits_mem_lt {c d : Nat} (h : d ∈ msdigits c) : d < 10 := by
  unfold msdigits at h
  by_cases hc : c = 0
  · rw [if_pos hc] at h
    simp at h
    omega
  · rw [if_neg hc, List.mem_reverse] at h
    exact natDigitsRev_mem_lt c c d h

/-- The digit list of a coefficient is never empty. -/
theorem msdigits_ne_nil (c : Nat) : msdigits c ≠ [] := by
  unfold msdigits
  by_cases hc : c = 0
  · rw [if_pos hc]; simp
  · rw [if_neg hc]
    obtain ⟨f, rfl⟩ : ∃ f, c = f + 1 := ⟨c - 1, by omega⟩
    intro h
    rw [List.reverse_eq_nil_iff] at h
    simp only [natDigitsRev, if_neg hc] at h
    exact List.cons_ne_nil _ _ h

/-- The digit list evaluates back to its number (fuel-general form). -/
theorem natDigitsRev_foldr : ∀ fuel n : Nat, n ≤ fuel →
    (natDigitsRev fuel n).foldr (fun d acc => acc * 10 + d) 0 = n := by
  intro fuel
  induction fuel with
  | zero =>
    intro n h
    have h0 : n = 0 := Nat.le_zero.mp h
    subst h0
    rfl
  | succ f ih =>
    intro n h
    by_cases hn : n = 0
    · subst hn; rfl
    · have hd : n / 10 < n := Nat.div_lt_self (Nat.pos_of_ne_zero hn) (by norm_num)
      have ihd := ih (n / 10) (by omega)
      simp only [natDigitsRev, if_neg hn, List.foldr_cons, ihd]
      omega

/-- The most-significant-first digit list evaluates back to the
coefficient. -/
theorem ofDigitsMS_msdigits (c : Nat) : ofDigitsMS (msdigits c) = c := by
  unfold msdigits
  by_cases hc : c = 0
  · rw [if_pos hc, hc]; rfl
  · rw [if_neg hc]
    rw [ofDigitsMS, List.foldl_reverse]
    exact natDigitsRev_foldr c c le_rfl

/-- `charToDigit` inverts `digitChar` on digits. -/
theorem charToDigit_digitChar {d : Nat} (h : d < 10) :
    charToDigit (digitChar d) = some d := by
  interval_cases d <;> rfl

/-- Digit characters are not the decimal point, exponent marker, sign
characters, or (after lowercasing) the leading letters of the special
tokens. -/
theorem digitChar_props {d : Nat} (h : d < 10) :
    isE (digitChar d) = false ∧ isDot (digitChar d) = false ∧
    digitChar d ≠ '-' ∧ digitChar d ≠ '+' ∧
    (digitChar d).toLower ≠ 'i' ∧ (digitChar d).toLower ≠ 'n' ∧
    (digitChar d).toLower ≠ 's' := by
  interval_cases d <;> exact ⟨rfl, rfl, by decide, by decide, by decide, by decide, by decide⟩

/-- Reading back a rendered digit list recovers the digits. -/
theorem digitsOfChars_map : ∀ l : List Nat, (∀ d ∈ l, d < 10) →
    digitsOfChars (l.map digitChar) = some l := by
  intro l
  induction l with
  | nil => intro _; rfl
  | cons a t ih =>
    intro h
    have ha : a < 10 := h a (List.mem_cons_self a t)
    have ht := ih fun d hd => h d (List.mem_cons_of_mem a hd)
    simp only [List.map_cons, digitsOfChars, charToDigit_digitChar ha, ht]

/-- `splitOn` passes through a list with no matching character. -/
theorem splitOn_none (p : Char → Bool) : ∀ l : List Char,
    (∀ c ∈ l, p c = false) → splitOn p l = (l, none) := by
  intro l
  induction l with
  | nil => intro _; rfl
  | cons a t ih =>
    intro h
    have ha := h a (List.mem_cons_self a t)
    have ht := ih fun c hc => h c (List.mem_cons_of_mem a hc)
    simp [splitOn, ha, ht]

/-- `splitOn` splits at the first matching character. -/
theorem splitOn_append (p : Char → Bool) : ∀ (l1 : List Char) (c : Char) (l2 : List Char),
    (∀ x ∈ l1, p x = false) → p c = true →
    splitOn p (l1 ++ c :: l2) = (l1, some l2) := by
  intro l1
  induction l1 with
  | nil => intro c l2 _ hc; simp [splitOn, hc]
  | cons a t ih =>
    intro c l2 h hc
    have ha := h a (List.mem_cons_self a t)
    have ht := ih c l2 (fun x hx => h x (List.mem_cons_of_mem a hx)) hc
    simp [splitOn, ha, ht]

/-- Every rendered digit character is `digitChar` of a digit. -/
theorem msdigitChars_spec {c : Nat} {ch : Char} (h : ch ∈ msdigitChars c) :
    ∃ d, d < 10 ∧ ch = digitChar d := by
  unfold msdigitChars at h
  rw [List.mem_map] at h
  obtain ⟨d, hd, rfl⟩ := h
  exact ⟨d, msdigits_mem_lt hd, rfl⟩

/-- Rendered digit characters are not the exponent marker. -/
theorem msdigitChars_isE {c : Nat} {ch : Char} (h : ch ∈ msdigitChars c) :
    isE ch = false := by
  obtain ⟨d, hd, rfl⟩ := msdigitChars_spec h
  exact (digitChar_props hd).1

/-- Rendered digit characters are not the decimal point. -/
theorem msdigitChars_isDot {c : Nat} {ch : Char} (h : ch ∈ msdigitChars c) :
    isDot ch = false := by
  obtain ⟨d, hd, rfl⟩ := msdigitChars_spec h
  exact (digitChar_props hd).2.1

/-- The digit-character list is never empty and supports head
destructuring. -/
theorem msdigitChars_cons (c : Nat) :
    ∃ d rest, d < 10 ∧ msdigitChars c = digitChar d :: rest := by
  cases hl : msdigits c with
  | nil => exact absurd hl (msdigits_ne_nil c)
  | cons a t =>
    have ha : a < 10 := msdigits_mem_lt (by rw [hl]; exact List.mem_cons_self a t)
    exact ⟨a, t.map digitChar, ha, by unfold msdigitChars; rw [hl]; rfl⟩


/-- A plain digit string parses back to the coefficient at exponent 0. -/
theorem parseFinite_digits (ctx : DecCtx) (sg : Bool) (c : Nat)
    (hclt : c < 10 ^ ctx.maxDigits) (h1 : ctx.expMin ≤ 0) (h2 : 0 ≤ ctx.expMax) :
    parseFinite ctx sg (msdigitChars c) = some (.finite sg c 0) := by
  have hE : splitOn isE (msdigitChars c) = (msdigitChars c, none) :=
    splitOn_none _ _ fun ch hch => msdigitChars_isE hch
  have hD : splitOn isDot (msdigitChars c) = (msdigitChars c, none) :=
    splitOn_none _ _ fun ch hch => msdigitChars_isDot hch
  have hdg : digitsOfChars (msdigitChars c) = some (msdigits c) :=
    digitsOfChars_map _ fun d hd => msdigits_mem_lt hd
  have hne : ((msdigits c).isEmpty && (List.isEmpty ([] : List Nat))) = false := by
    cases hl : msdigits c with
    | nil => exact absurd hl (msdigits_ne_nil c)
    | cons a t => rfl
  unfold parseFinite
  rw [hE]
  dsimp only
  rw [hD]
  dsimp only [Option.getD]
  rw [hdg]
  dsimp only [digitsOfChars]
  rw [hne]
  simp only [Bool.false_eq_true, if_false, List.append_nil, ofDigitsMS_msdigits,
    List.length_nil, Nat.cast_zero, sub_zero]
  rw [if_pos ⟨hclt, h1, h2⟩]


/-- The digit list of a coefficient is never the empty list (boolean form). -/
theorem msdigits_isEmpty (c : Nat) : (msdigits c).isEmpty = false := by
  cases hl : msdigits c with
  | nil => exact absurd hl (msdigits_ne_nil c)
  | cons a t => rfl

/-- A rendered digit string reads back as its number. -/
theorem natOfChars_msdigitChars (n : Nat) : natOfChars (msdigitChars n) = some n := by
  unfold natOfChars msdigitChars
  rw [digitsOfChars_map _ fun d hd => msdigits_mem_lt hd]
  simp [msdigits_isEmpty, ofDigitsMS_msdigits]

/-- A rendered (unsigned) exponent suffix parses back to its value. -/
theorem parseExpPart_msdigitChars (n : Nat) :
    parseExpPart (msdigitChars n) = some (n : Int) := by
  obtain ⟨d0, rest, hd0, hcons⟩ := msdigitChars_cons n
  rw [hcons]
  simp only [parseExpPart]
  rw [if_neg (digitChar_props hd0).2.2.1, if_neg (digitChar_props hd0).2.2.2.1]
  rw [← hcons, natOfChars_msdigitChars]
  rfl

/-- A digit string with a positive exponent marker parses back exactly. -/
theorem parseFinite_exp (ctx : DecCtx) (sg : Bool) (c : Nat) (e : Int) (he : 0 < e)
    (hclt : c < 10 ^ ctx.maxDigits) (h1 : ctx.expMin ≤ e) (h2 : e ≤ ctx.expMax) :
    parseFinite ctx sg (msdigitChars c ++ 'e' :: msdigitChars e.toNat) =
      some (.finite sg c e) := by
  have hE : splitOn isE (msdigitChars c ++ 'e' :: msdigitChars e.toNat) =
      (msdigitChars c, some (msdigitChars e.toNat)) :=
    splitOn_append _ _ _ _ (fun ch hch => msdigitChars_isE hch) (by decide)
  have hD : splitOn isDot (msdigitChars c) = (msdigitChars c, none) :=
    splitOn_none _ _ fun ch hch => msdigitChars_isDot hch
  have hdg : digitsOfChars (msdigitChars c) = some (msdigits c) :=
    digitsOfChars_map _ fun d hd => msdigits_mem_lt hd
  have hne : ((msdigits c).isEmpty && (List.isEmpty ([] : List Nat))) = false := by
    rw [msdigits_isEmpty]
    rfl
  have htn : ((e.toNat : Nat) : Int) = e := Int.toNat_of_nonneg (le_of_lt he)
  unfold parseFinite
  rw [hE]
  dsimp only
  rw [hD]
  dsimp only [Option.getD]
  rw [hdg]
  dsimp only [digitsOfChars]
  rw [hne]
  simp only [Bool.false_eq_true, if_false, List.append_nil, ofDigitsMS_msdigits,
    List.length_nil, Nat.cast_zero, sub_zero]
  rw [parseExpPart_msdigitChars, htn]
  dsimp only
  rw [if_pos ⟨hclt, h1, h2⟩]


/-- Leading zero digits do not change the value of a digit list. -/
theorem ofDigitsMS_zero_prefix : ∀ (n : Nat) (l : List Nat),
    ofDigitsMS (List.replicate n 0 ++ l) = ofDigitsMS l := by
  intro n
  induction n with
  | zero => intro l; rfl
  | succ m ih =>
    intro l
    have hstep : ofDigitsMS (List.replicate (m + 1) 0 ++ l) =
        ofDigitsMS (List.replicate m 0 ++ l) := by
      rw [List.replicate_succ]
      rfl
    rw [hstep, ih]

/-- A digit string with an interior decimal point parses back exactly
(the case where the point falls inside the digits: `|e|` below the digit
count). -/
theorem parseFinite_dot_inner (ctx : DecCtx) (sg : Bool) (c : Nat) (e : Int) (he : e < 0)
    (hk : (-e).toNat < (msdigitChars c).length)
    (hclt : c < 10 ^ ctx.maxDigits) (h1 : ctx.expMin ≤ e) (h2 : e ≤ ctx.expMax) :
    parseFinite ctx sg
      ((msdigitChars c).take ((msdigitChars c).length - (-e).toNat) ++
        '.' :: (msdigitChars c).drop ((msdigitChars c).length - (-e).toNat)) =
      some (.finite sg c e) := by
  have hLL : (msdigitChars c).length = (msdigits c).length := List.length_map _ _
  have hL1 : 1 ≤ (msdigits c).length := by
    cases hl : msdigits c with
    | nil => exact absurd hl (msdigits_ne_nil c)
    | cons a t => simp
  have hE : splitOn isE
      ((msdigitChars c).take ((msdigitChars c).length - (-e).toNat) ++
        '.' :: (msdigitChars c).drop ((msdigitChars c).length - (-e).toNat)) =
      ((msdigitChars c).take ((msdigitChars c).length - (-e).toNat) ++
        '.' :: (msdigitChars c).drop ((msdigitChars c).length - (-e).toNat), none) := by
    apply splitOn_none
    intro ch hch
    rcases List.mem_append.mp hch with hm | hm
    · exact msdigitChars_isE (List.take_subset _ _ hm)
    · rcases List.mem_cons.mp hm with hm | hm
      · rw [hm]; decide
      · exact msdigitChars_isE (List.drop_subset _ _ hm)
  have hD : splitOn isDot
      ((msdigitChars c).take ((msdigitChars c).length - (-e).toNat) ++
        '.' :: (msdigitChars c).drop ((msdigitChars c).length - (-e).toNat)) =
      ((msdigitChars c).take ((msdigitChars c).length - (-e).toNat),
        some ((msdigitChars c).drop ((msdigitChars c).length - (-e).toNat))) := by
    apply splitOn_append
    · intro ch hch
      exact msdigitChars_isDot (List.take_subset _ _ hch)
    · decide
  have htake : (msdigitChars c).take ((msdigitChars c).length - (-e).toNat) =
      ((msdigits c).take ((msdigitChars c).length - (-e).toNat)).map digitChar := by
    unfold msdigitChars
    rw [List.map_take]
  have hdrop : (msdigitChars c).drop ((msdigitChars c).length - (-e).toNat) =
      ((msdigits c).drop ((msdigitChars c).length - (-e).toNat)).map digitChar := by
    unfold msdigitChars
    rw [List.map_drop]
  have hip : digitsOfChars ((msdigitChars c).take ((msdigitChars c).length - (-e).toNat)) =
      some ((msdigits c).take ((msdigitChars c).length - (-e).toNat)) := by
    rw [htake]
    exact digitsOfChars_map _ fun d hd => msdigits_mem_lt (List.take_subset _ _ hd)
  have hfp : digitsOfChars ((msdigitChars c).drop ((msdigitChars c).length - (-e).toNat)) =
      some ((msdigits c).drop ((msdigitChars c).length - (-e).toNat)) := by
    rw [hdrop]
    exact digitsOfChars_map _ fun d hd => msdigits_mem_lt (List.drop_subset _ _ hd)
  have hne : (((msdigits c).take ((msdigitChars c).length - (-e).toNat)).isEmpty &&
      ((msdigits c).drop ((msdigitChars c).length - (-e).toNat)).isEmpty) = false := by
    cases hl : (msdigits c).take ((msdigitChars c).length - (-e).toNat) with
    | cons a t => rfl
    | nil =>
      exfalso
      have hlen := congrArg List.length hl
      rw [List.length_take] at hlen
      simp only [List.length_nil] at hlen
      omega
  have hlen : ((msdigits c).drop ((msdigitChars c).length - (-e).toNat)).length =
      (-e).toNat := by
    rw [List.length_drop]
    omega
  have hee : (0 : Int) - (((-e).toNat : Nat) : Int) = e := by omega
  unfold parseFinite
  rw [hE]
  dsimp only
  rw [hD]
  dsimp only [Option.getD]
  rw [hip, hfp]
  dsimp only
  rw [hne]
  simp only [Bool.false_eq_true, if_false]
  rw [List.take_append_drop, ofDigitsMS_msdigits]
  rw [hlen, hee]
  rw [if_pos ⟨hclt, h1, h2⟩]


/-- A `0.`-prefixed digit string with leading fractional zeros parses back
exactly (the case where `|e|` is at least the digit count). -/
theorem parseFinite_dot_outer (ctx : DecCtx) (sg : Bool) (c : Nat) (e : Int) (he : e < 0)
    (hk : ¬(-e).toNat < (msdigitChars c).length)
    (hclt : c < 10 ^ ctx.maxDigits) (h1 : ctx.expMin ≤ e) (h2 : e ≤ ctx.expMax) :
    parseFinite ctx sg
      ('0' :: '.' ::
        (List.replicate ((-e).toNat - (msdigitChars c).length) '0' ++ msdigitChars c)) =
      some (.finite sg c e) := by
  have hLL : (msdigitChars c).length = (msdigits c).length := List.length_map _ _
  have hfrac : List.replicate ((-e).toNat - (msdigitChars c).length) '0' ++ msdigitChars c =
      (List.replicate ((-e).toNat - (msdigitChars c).length) 0 ++ msdigits c).map
        digitChar := by
    rw [List.map_append, List.map_replicate]
    rfl
  have hE : splitOn isE
      ('0' :: '.' ::
        (List.replicate ((-e).toNat - (msdigitChars c).length) '0' ++ msdigitChars c)) =
      ('0' :: '.' ::
        (List.replicate ((-e).toNat - (msdigitChars c).length) '0' ++ msdigitChars c),
        none) := by
    apply splitOn_none
    intro ch hch
    rcases List.mem_cons.mp hch with hm | hm
    · rw [hm]; decide
    · rcases List.mem_cons.mp hm with hm2 | hm2
      · rw [hm2]; decide
      · rcases List.mem_append.mp hm2 with hm3 | hm3
        · rw [List.eq_of_mem_replicate hm3]; decide
        · exact msdigitChars_isE hm3
  have hD : splitOn isDot
      ('0' :: '.' ::
        (List.replicate ((-e).toNat - (msdigitChars c).length) '0' ++ msdigitChars c)) =
      (['0'],
        some (List.replicate ((-e).toNat - (msdigitChars c).length) '0' ++
          msdigitChars c)) := by
    exact splitOn_append isDot ['0'] '.'
      (List.replicate ((-e).toNat - (msdigitChars c).length) '0' ++ msdigitChars c)
      (fun x hx => by rw [List.mem_singleton.mp hx]; decide) (by decide)
  have hip : digitsOfChars ['0'] = some [0] := rfl
  have hfp : digitsOfChars
      (List.replicate ((-e).toNat - (msdigitChars c).length) '0' ++ msdigitChars c) =
      some (List.replicate ((-e).toNat - (msdigitChars c).length) 0 ++ msdigits c) := by
    rw [hfrac]
    apply digitsOfChars_map
    intro d hd
    rcases List.mem_append.mp hd with hm | hm
    · rw [List.eq_of_mem_replicate hm]; norm_num
    · exact msdigits_mem_lt hm
  have hval : ofDigitsMS ([0] ++
      (List.replicate ((-e).toNat - (msdigitChars c).length) 0 ++ msdigits c)) = c := by
    have hshape : ([0] : List Nat) ++
        (List.replicate ((-e).toNat - (msdigitChars c).length) 0 ++ msdigits c) =
        List.replicate (((-e).toNat - (msdigitChars c).length) + 1) 0 ++ msdigits c := by
      rw [List.replicate_succ]
      rfl
    rw [hshape, ofDigitsMS_zero_prefix, ofDigitsMS_msdigits]
  have hlen : (List.replicate ((-e).toNat - (msdigitChars c).length) 0 ++
      msdigits c).length = (-e).toNat := by
    rw [List.length_append, List.length_replicate]
    omega
  have hee : (0 : Int) - (((-e).toNat : Nat) : Int) = e := by omega
  unfold parseFinite
  rw [hE]
  dsimp only
  rw [hD]
  dsimp only [Option.getD]
  rw [hip, hfp]
  dsimp only
  have hcond : (([0] : List Nat).isEmpty &&
      (List.replicate ((-e).toNat - (msdigitChars c).length) 0 ++
        msdigits c).isEmpty) = false := rfl
  rw [hcond]
  simp only [Bool.false_eq_true, if_false]
  rw [hval, hlen, hee]
  rw [if_pos ⟨hclt, h1, h2⟩]

/-- The rendered mantissa always starts with a digit character. -/
theorem mantChars_head (c : Nat) (e : Int) :
    ∃ d t, d < 10 ∧ mantChars c e = digitChar d :: t := by
  obtain ⟨d0, rest, hd0, hchars⟩ := msdigitChars_cons c
  unfold mantChars
  dsimp only
  split_ifs with hpos hzero hk
  · exact ⟨d0, rest ++ 'e' :: msdigitChars e.toNat, hd0, by rw [hchars]; rfl⟩
  · exact ⟨d0, rest, hd0, hchars⟩
  · obtain ⟨m, hm⟩ : ∃ m, (msdigitChars c).length - (-e).toNat = m + 1 := by
      refine ⟨(msdigitChars c).length - (-e).toNat - 1, ?_⟩
      have : 1 ≤ (msdigitChars c).length - (-e).toNat := by omega
      omega
    refine ⟨d0, rest.take m ++ '.' :: rest.drop m, hd0, ?_⟩
    rw [hm, hchars, List.take_succ_cons, List.drop_succ_cons, List.cons_append]
  · exact ⟨0, '.' ::
      (List.replicate ((-e).toNat - (msdigitChars c).length) '0' ++ msdigitChars c),
      by norm_num, rfl⟩

/-- The quantum-preserving rendering of any in-budget finite triple parses
back to the triple exactly. -/
theorem parseFinite_mantChars (ctx : DecCtx) (sg : Bool) (c : Nat) (e : Int)
    (hclt : c < 10 ^ ctx.maxDigits) (h1 : ctx.expMin ≤ e) (h2 : e ≤ ctx.expMax) :
    parseFinite ctx sg (mantChars c e) = some (.finite sg c e) := by
  unfold mantChars
  dsimp only
  split_ifs with hpos hzero hk
  · exact parseFinite_exp ctx sg c e hpos hclt h1 h2
  · subst hzero
    exact parseFinite_digits ctx sg c hclt h1 h2
  · exact parseFinite_dot_inner ctx sg c e (by omega) hk hclt h1 h2
  · exact parseFinite_dot_outer ctx sg c e (by omega) hk hclt h1 h2

/-- A leading minus sign is consumed as the sign. -/
theorem takeSign_minus (t : List Char) : takeSign ('-' :: t) = (true, t) := rfl

/-- A leading digit character is not consumed as a sign. -/
theorem takeSign_digit {d : Nat} (hd : d < 10) (t : List Char) :
    takeSign (digitChar d :: t) = (false, digitChar d :: t) := by
  simp only [takeSign]
  rw [if_neg (digitChar_props hd).2.2.1, if_neg (digitChar_props hd).2.2.2.1]

/-- C8: for every finite value whose coefficient digit count fits the
type's budget (and whose exponent is representable), parsing the
quantum-preserving formatting reproduces the value exactly — same sign,
same coefficient, same exponent, hence the same bit pattern. -/
theorem claim_C8_parse_format_roundtrip (ctx : DecCtx) (sg : Bool) (c : Nat) (e : Int)
    (hdig : numDigits c ≤ ctx.maxDigits)
    (h1 : ctx.expMin ≤ e) (h2 : e ≤ ctx.expMax) :
    parseDec ctx (formatDec true (.finite sg c e)) = some (.finite sg c e) := by
  have hclt : c < 10 ^ ctx.maxDigits := lt_pow_of_numDigits_le hdig
  have hPF := parseFinite_mantChars ctx sg c e hclt h1 h2
  obtain ⟨d, t, hd, hform⟩ := mantChars_head c e
  have hdata : (formatDec true (.finite sg c e)).data =
      (if sg then ['-'] else []) ++ mantChars c e := rfl
  have hts : takeSign ((if sg then ['-'] else []) ++ mantChars c e) =
      (sg, mantChars c e) := by
    cases sg
    · show takeSign ([] ++ mantChars c e) = (false, mantChars c e)
      rw [List.nil_append, hform]
      exact takeSign_digit hd t
    · show takeSign ('-' :: mantChars c e) = (true, mantChars c e)
      exact takeSign_minus _
  have hmap : (mantChars c e).map Char.toLower =
      (digitChar d).toLower :: t.map Char.toLower := by
    rw [hform]
    rfl
  have hinf : ¬((mantChars c e).map Char.toLower = "inf".data ∨
      (mantChars c e).map Char.toLower = "infinity".data) := by
    rw [hmap]
    have e1 : "inf".data = 'i' :: 'n' :: 'f' :: [] := rfl
    have e2 : "infinity".data =
        'i' :: 'n' :: 'f' :: 'i' :: 'n' :: 'i' :: 't' :: 'y' :: [] := rfl
    rintro (h | h)
    · rw [e1] at h
      injection h with h1 _
      exact (digitChar_props hd).2.2.2.2.1 h1
    · rw [e2] at h
      injection h with h1 _
      exact (digitChar_props hd).2.2.2.2.1 h1
  have hnan : (mantChars c e).map Char.toLower ≠ "nan".data := by
    rw [hmap]
    have e1 : "nan".data = 'n' :: 'a' :: 'n' :: [] := rfl
    intro h
    rw [e1] at h
    injection h with h1 _
    exact (digitChar_props hd).2.2.2.2.2.1 h1
  have hsnan : (mantChars c e).map Char.toLower ≠ "snan".data := by
    rw [hmap]
    have e1 : "snan".data = 's' :: 'n' :: 'a' :: 'n' :: [] := rfl
    intro h
    rw [e1] at h
    injection h with h1 _
    exact (digitChar_props hd).2.2.2.2.2.2 h1
  unfold parseDec
  rw [hdata, hts]
  dsimp only
  rw [if_neg hinf, if_neg hnan, if_neg hsnan]
  exact hPF

/-- C8 witness: the decimal64 value `-1.50` (sign set, coefficient 150,
exponent −2) survives the quantum-preserving round trip bit for bit. -/
theorem claim_C8_parse_format_roundtrip_witness :
    numDigits 150 ≤ dec64.maxDigits ∧
    parseDec dec64 (formatDec true (.finite true 150 (-2))) =
      some (.finite true 150 (-2)) :=
  ⟨by decide,
    claim_C8_parse_format_roundtrip dec64 true 150 (-2) (by decide) (by decide) (by decide)⟩

end DecSpec
